import Mathlib

/-!
Verification of the MDP_LD3 grid-world reinforcement-learning repository.

The definitions below are a shallow embedding of the Python sources:
mdp_environment.py (GridWorldMDP, generate_random_box_locations),
feature_extractor.py (FeatureExtractor), approx_q_agent.py
(ApproxQLearningAgent.learn / get_q_value), main.py
(generate_random_obstacles), and the value-iteration sweep of
mdp_agent.py / value_iteration_agent.py.

Conventions of the embedding:
* Python floats are modelled as rationals; the reward constants,
  learning rates and value functions are exact rationals.
* Python random draws are passed in explicitly: `rand` stands for the
  value of random.random() and `choice` for the outcome of
  random.choice over a two-element list.
* Python dicts are modelled as association lists, Python sets as lists
  with decidable membership.
-/

namespace MDP

/-- A grid position, the Python pair (x, y) of ints. -/
abbrev Pos : Type := ℤ × ℤ

/-- A state: (position, tuple of box-collected flags), as in
mdp_environment.py `State = Tuple[Tuple[int, int], Tuple[bool, ...]]`. -/
abbrev State : Type := Pos × List Bool

/-- The four actions of GridWorldMDP: `['up', 'down', 'left', 'right']`. -/
inductive Action : Type
  | up
  | down
  | left
  | right
deriving DecidableEq, Repr

/-- The fixed action list `self.actions` of GridWorldMDP (and of
FeatureExtractor), in source order. -/
def actionList : List Action := [Action.up, Action.down, Action.left, Action.right]

/-- `move_map = {'up': (0, 1), 'down': (0, -1), 'left': (-1, 0), 'right': (1, 0)}`. -/
def move_map : Action → ℤ × ℤ
  | Action.up => (0, 1)
  | Action.down => (0, -1)
  | Action.left => (-1, 0)
  | Action.right => (1, 0)

/-- `self.perpendicular_actions`: each action mapped to its two
perpendicular alternatives, in source order. -/
def perpendicular_actions : Action → Action × Action
  | Action.up => (Action.left, Action.right)
  | Action.down => (Action.left, Action.right)
  | Action.left => (Action.up, Action.down)
  | Action.right => (Action.up, Action.down)

/-- Lookup in an association list (a Python dict keyed by positions):
`d[final_position]` guarded by `final_position in d`. -/
def assocLookup {α β : Type} [DecidableEq α] : List (α × β) → α → Option β
  | [], _ => none
  | (k, v) :: rest, q => if k = q then some v else assocLookup rest q

/-- The candidate next position: the unit displacement of the action
applied to a position (`(position[0] + dx, position[1] + dy)`). -/
def next_position (p : Pos) (a : Action) : Pos :=
  (p.1 + (move_map a).1, p.2 + (move_map a).2)

/-- The bounds test `1 <= x <= grid_size and 1 <= y <= grid_size`. -/
def in_bounds (gs : ℤ) (p : Pos) : Prop :=
  1 ≤ p.1 ∧ p.1 ≤ gs ∧ 1 ≤ p.2 ∧ p.2 ≤ gs

instance (gs : ℤ) (p : Pos) : Decidable (in_bounds gs p) := by
  unfold in_bounds; infer_instance

/-- The GridWorldMDP environment data fixed at construction:
grid size, obstacle set, box dict (position to index) and the
intended-action probability. -/
structure GridWorldMDP : Type where
  grid_size : ℤ
  obstacles : List Pos
  boxes : List (Pos × ℕ)
  intended_action_prob : ℚ
deriving DecidableEq, Repr

/-- `is_terminal`: `all(state[1])` — every box flag is True. -/
def is_terminal (state : State) : Bool := state.2.all (fun b => b)

/-- The action actually executed in `step`: the intended action, unless
the stochastic branch is taken (`not deterministic and
random.random() > self.intended_action_prob`), in which case
`random.choice(self.perpendicular_actions[action])` is executed.
`rand` is the random.random() draw and `choice` selects which of the
two perpendicular actions random.choice returns. -/
def actual_action (env : GridWorldMDP) (action : Action) (deterministic : Bool)
    (rand : ℚ) (choice : Bool) : Action :=
  if deterministic = false ∧ env.intended_action_prob < rand then
    if choice then (perpendicular_actions action).1 else (perpendicular_actions action).2
  else action

/-- GridWorldMDP.step. Mirrors mdp_environment.py lines 45-98.
The `lastState` parameter is accepted and, as in the source, never
read. The random draws used by the stochastic branch are the explicit
arguments `rand` and `choice`. Box indices out of range of the mask
are modelled with getD/set (well-formed environments keep every box
index below the mask length, as main.py constructs them). -/
def step (env : GridWorldMDP) (state : State) (lastState : Option State)
    (action : Action) (deterministic : Bool) (rand : ℚ) (choice : Bool) :
    State × ℚ :=
  if is_terminal state then (state, 0)
  else
    let position := state.1
    let box_statuses := state.2
    let a := actual_action env action deterministic rand choice
    let np : Pos := next_position position a
    let is_stuck : Bool :=
      if in_bounds env.grid_size np ∧ np ∉ env.obstacles then false else true
    let final_position := if is_stuck then position else np
    match assocLookup env.boxes final_position with
    | some box_index =>
        if box_statuses.getD box_index false = false then
          let new_box_statuses := box_statuses.set box_index true
          ((final_position, new_box_statuses),
            if is_terminal (final_position, new_box_statuses) then 500 else 100)
        else
          ((final_position, box_statuses), if is_stuck then -10 else -5)
    | none =>
        ((final_position, box_statuses), if is_stuck then -10 else -5)

/-- A small concrete environment used by witnesses: a 2x2 grid, no
obstacles, one box at (2,2), intended-action probability 1. -/
def envA : GridWorldMDP :=
  { grid_size := 2, obstacles := [], boxes := [(((2 : ℤ), (2 : ℤ)), 0)],
    intended_action_prob := 1 }

/-- A concrete environment whose box sits at (1,1), used to exhibit a
stuck move that nevertheless collects a box. -/
def envB : GridWorldMDP :=
  { grid_size := 2, obstacles := [], boxes := [(((1 : ℤ), (1 : ℤ)), 0)],
    intended_action_prob := 1 }

/-- Modelled from the spec: the Value-Iteration agents
(mdp_agent.py and value_iteration_agent.py) call a two-argument
`self.mdp.step(s, a)` of an environment variant that is not under
src/; per the spec the solver uses "the *deterministic* transition",
i.e. the single intended-action outcome, which coincides with
GridWorldMDP.step with deterministic=True (the random draws are then
never consulted). -/
def step_det (env : GridWorldMDP) (s : State) (a : Action) : State × ℚ :=
  step env s none a true 0 true

/-- The one-step lookahead `reward(s,a) + gamma * V(next(s,a))` used by
both value-iteration agents. -/
def q_lookahead (env : GridWorldMDP) (gamma : ℚ) (V : State → ℚ)
    (s : State) (a : Action) : ℚ :=
  (step_det env s a).2 + gamma * V (step_det env s a).1

/-- `max(action_values)` over the action list [up, down, left, right]:
Python's max of a four-element list. -/
def bestValue (env : GridWorldMDP) (gamma : ℚ) (V : State → ℚ) (s : State) : ℚ :=
  max (max (max (q_lookahead env gamma V s Action.up)
      (q_lookahead env gamma V s Action.down))
    (q_lookahead env gamma V s Action.left))
    (q_lookahead env gamma V s Action.right)

/-- One sweep of `_run_value_iteration`: for every non-terminal state in
order, replace its value in place by the best one-step lookahead and
accumulate `delta = max(delta, abs(v - V[s]))`. The enumerated state
space (`self.mdp.states`, modelled from the spec as a duplicate-free
enumeration of Position x GoalMask) is passed as the list argument. -/
def vi_sweep (env : GridWorldMDP) (gamma : ℚ) :
    List State → (State → ℚ) → ℚ → (State → ℚ) × ℚ
  | [], V, delta => (V, delta)
  | s :: rest, V, delta =>
    if is_terminal s then vi_sweep env gamma rest V delta
    else
      let nv := bestValue env gamma V s
      vi_sweep env gamma rest (Function.update V s nv) (max delta |V s - nv|)

/-- Witness data for the value-iteration claim: a 1x1 grid whose only
cell carries the single box. -/
def envW : GridWorldMDP :=
  { grid_size := 1, obstacles := [], boxes := [(((1 : ℤ), (1 : ℤ)), 0)],
    intended_action_prob := 1 }

/-- The enumerated state space of envW. -/
def statesW : List State :=
  [(((1 : ℤ), (1 : ℤ)), [false]), (((1 : ℤ), (1 : ℤ)), [true])]

/-- A value function for the witness sweep. -/
def V0W : State → ℚ := fun s => if is_terminal s then 0 else 500

/-- The value function after one witness sweep. -/
def VW : State → ℚ := (vi_sweep envW 1 statesW V0W 0).1

/-- The delta of the witness sweep. -/
def deltaW : ℚ := (vi_sweep envW 1 statesW V0W 0).2

/-- The FeatureExtractor construction data (feature_extractor.py):
grid size, number of boxes, the inverted dict box_locations mapping
box index to position (built from boxes_data), and the obstacle set. -/
structure FeatureExtractor : Type where
  grid_size : ℤ
  num_boxes : ℕ
  box_locations : List (ℕ × Pos)
  obstacles : List Pos
deriving DecidableEq, Repr

/-- The memoized BFS cache `self.bfs_cache`: a dict keyed by the sorted
pair of endpoints, holding Optional distances. -/
abbrev Cache : Type := List ((Pos × Pos) × Option ℕ)

/-- The neighbour offsets of _bfs, in source order
`[(0, 1), (0, -1), (1, 0), (-1, 0)]`. -/
def bfs_deltas : List (ℤ × ℤ) := [(0, 1), (0, -1), (1, 0), (-1, 0)]

/-- The inner for-loop of one _bfs iteration: scan the neighbour
offsets of the popped cell (p at depth d); if a neighbour equals
end_pos return dist+1 at once (Except.error carries the early return),
otherwise append in-bounds, unblocked, unvisited neighbours to the
queue and to visited. -/
def bfs_expand (fe : FeatureExtractor) (end_pos : Pos) (d : ℕ) (p : Pos) :
    List (ℤ × ℤ) → List (Pos × ℕ) → List Pos →
      Except ℕ (List (Pos × ℕ) × List Pos)
  | [], queue, visited => Except.ok (queue, visited)
  | dxy :: ds, queue, visited =>
    let np : Pos := (p.1 + dxy.1, p.2 + dxy.2)
    if np = end_pos then Except.error (d + 1)
    else if in_bounds fe.grid_size np ∧ np ∉ fe.obstacles ∧ np ∉ visited then
      bfs_expand fe end_pos d p ds (queue ++ [(np, d + 1)]) (visited ++ [np])
    else bfs_expand fe end_pos d p ds queue visited

/-- The while-loop of _bfs: pop the queue head, expand its neighbours,
continue. The Python loop needs no fuel; here one unit of fuel is spent
per popped entry. Every entry ever enqueued has its position added to
the duplicate-free visited list, and every visited position lies in
the grid (or is the start), so the loop pops at most
grid_size^2 + 1 entries; with the fuel used by `bfs` below the
fuel-exhausted branch is unreachable (see bfs_loop_no_fuel_exhaustion). -/
def bfs_loop (fe : FeatureExtractor) (end_pos : Pos) :
    ℕ → List (Pos × ℕ) → List Pos → Option ℕ
  | _, [], _ => none
  | 0, _ :: _, _ => none
  | fuel + 1, (p, d) :: rest, visited =>
    match bfs_expand fe end_pos d p bfs_deltas rest visited with
    | Except.error n => some n
    | Except.ok (q, v) => bfs_loop fe end_pos fuel q v

/-- The fuel budget for `bfs`: one more than the number of grid cells. -/
def bfs_fuel (fe : FeatureExtractor) : ℕ :=
  fe.grid_size.toNat * fe.grid_size.toNat + 1

/-- FeatureExtractor._bfs: 0 if start equals end, else breadth-first
search from `[(start_pos, 0)]` with `visited = {start_pos}`. -/
def bfs (fe : FeatureExtractor) (start_pos end_pos : Pos) : Option ℕ :=
  if start_pos = end_pos then some 0
  else bfs_loop fe end_pos (bfs_fuel fe) [(start_pos, 0)] [start_pos]

/-- The lexicographic comparison underlying Python's
`tuple(sorted((start_pos, end_pos)))` on pairs of ints. -/
def pair_le (a b : Pos) : Prop := a.1 < b.1 ∨ (a.1 = b.1 ∧ a.2 ≤ b.2)

instance (a b : Pos) : Decidable (pair_le a b) := by
  unfold pair_le; infer_instance

/-- The order-independent cache key `tuple(sorted((a, b)))`. -/
def sorted_key (a b : Pos) : Pos × Pos :=
  if pair_le a b then (a, b) else (b, a)

/-- FeatureExtractor.get_path_distance: look the sorted key up in the
cache; on a miss run _bfs and store the result. Returns the distance
together with the updated cache (the mutation of self.bfs_cache). -/
def get_path_distance (fe : FeatureExtractor) (cache : Cache)
    (start_pos end_pos : Pos) : Option ℕ × Cache :=
  let key := sorted_key start_pos end_pos
  match assocLookup cache key with
  | some v => (v, cache)
  | none =>
    (bfs fe start_pos end_pos, (key, bfs fe start_pos end_pos) :: cache)

/-- The list comprehension
`[self.get_path_distance(p, box_pos) for box_pos in boxes]`,
threading the cache left to right. -/
def dist_list (fe : FeatureExtractor) : Cache → Pos → List Pos →
    List (Option ℕ) × Cache
  | cache, _, [] => ([], cache)
  | cache, p, b :: bs =>
    let r := get_path_distance fe cache p b
    let rest := dist_list fe r.2 p bs
    (r.1 :: rest.1, rest.2)

/-- `min(reachable_dists)` guarded by `if reachable_dists:`, with
float('inf') modelled as the top element. -/
def min_reachable (ds : List (Option ℕ)) : WithTop ℕ :=
  match ds.filterMap id with
  | [] => ⊤
  | x :: xs => ((xs.foldl min x : ℕ) : WithTop ℕ)

/-- The uncollected-box positions
`[self.box_locations[i] for i in range(self.num_boxes) if not box_statuses[i]]`.
The lookup always succeeds for well-formed extractors (box indices
0..num_boxes-1 are all keys of box_locations, as main.py builds them);
filterMap drops a missing index where Python would raise KeyError. -/
def uncollected_boxes (fe : FeatureExtractor) (mask : List Bool) : List Pos :=
  ((List.range fe.num_boxes).filter (fun i => mask.getD i false = false)).filterMap
    (fun i => assocLookup fe.box_locations i)

/-- In feature_extractor.py line 91 the test
`next_pos in self.box_locations` asks whether the position next_pos is
a KEY of box_locations, and the keys of box_locations are the integer
box indices (the dict is index-to-position). In Python an int never
compares equal to a tuple of ints, so the per-key comparison is always
False; this function is that cross-type equality test. -/
def key_matches_pos (k : ℕ) (p : Pos) : Bool := false

/-- Python's `next_pos in d` for a dict d keyed by ints: some key of d
equals the position next_pos. -/
def dict_has_pos_key (d : List (ℕ × Pos)) (p : Pos) : Bool :=
  d.any (fun kv => key_matches_pos kv.1 p)

/-- The collision test of get_features:
`1.0 if not (1 <= nx <= gs and 1 <= ny <= gs) or next_pos in obstacles`. -/
def collision_flag (fe : FeatureExtractor) (np : Pos) : Bool :=
  if in_bounds fe.grid_size np ∧ np ∉ fe.obstacles then false else true

/-- The guarded nearest-uncollected-box distance of get_features:
float('inf') when the uncollected list is empty (no queries run),
otherwise the minimum of the reachable path distances (still
float('inf') when none is reachable), with the cache updated by the
queries. -/
def dist_to_nearest (fe : FeatureExtractor) (cache : Cache) (p : Pos)
    (uncollected : List Pos) : WithTop ℕ × Cache :=
  if uncollected.isEmpty then ((⊤ : WithTop ℕ), cache)
  else
    let r := dist_list fe cache p uncollected
    (min_reachable r.1, r.2)

/-- FeatureExtractor.get_features: the five-element feature vector
[bias, collision, gets-closer, collects-box, reversal], together with
the cache after the distance queries. dist_after is computed only when
the move is not a collision (`if not is_collision and
uncollected_boxes:`, folded into dist_to_nearest's empty guard). The
collects-box branch guards with `next_pos in self.box_locations and
not is_collision`; were the guard ever true it would additionally
require the looked-up box to be uncollected (that body is unreachable,
see key_matches_pos, and is modelled by the value 1 it would
contribute when collecting). -/
def get_features (fe : FeatureExtractor) (cache : Cache) (state : State)
    (action : Action) (last_pos : Option Pos) : List ℚ × Cache :=
  let player_pos := state.1
  let box_statuses := state.2
  let next_pos := next_position player_pos action
  let is_collision : Bool := collision_flag fe next_pos
  let uncollected := uncollected_boxes fe box_statuses
  let before : WithTop ℕ × Cache := dist_to_nearest fe cache player_pos uncollected
  let after : WithTop ℕ × Cache :=
    if is_collision = false then dist_to_nearest fe before.2 next_pos uncollected
    else ((⊤ : WithTop ℕ), before.2)
  let gets_closer : ℚ := if after.1 < before.1 then 1 else 0
  let is_box_collected : ℚ :=
    if dict_has_pos_key fe.box_locations next_pos = true ∧ is_collision = false
    then 1 else 0
  let is_reversal : ℚ :=
    match last_pos with
    | some lp => if next_pos = lp then 1 else 0
    | none => 0
  ([1, if is_collision = true then 1 else 0, gets_closer, is_box_collected,
      is_reversal],
    after.2)

/-- 4-adjacency: q is one BFS neighbour offset away from p. -/
def adjacent (p q : Pos) : Prop :=
  ∃ dxy ∈ bfs_deltas, q = (p.1 + dxy.1, p.2 + dxy.2)

/-- A free cell: inside the grid bounds and not an obstacle. -/
def free_cell (fe : FeatureExtractor) (p : Pos) : Prop :=
  in_bounds fe.grid_size p ∧ p ∉ fe.obstacles

instance (fe : FeatureExtractor) (p : Pos) : Decidable (free_cell fe p) := by
  unfold free_cell; infer_instance

/-- The specification's notion of a 4-connected path: ReachN fe a n b
holds when there is a walk of exactly n hops from a to b whose every
vertex (endpoints included) stays inside the grid bounds and avoids
every obstacle cell. -/
inductive ReachN (fe : FeatureExtractor) (a : Pos) : ℕ → Pos → Prop
  | refl : free_cell fe a → ReachN fe a 0 a
  | step {n : ℕ} {p q : Pos} : ReachN fe a n p → adjacent p q →
      free_cell fe q → ReachN fe a (n + 1) q

/-- A well-formed bfs_cache: every stored value is the _bfs result of
its key pair in one of the two orientations (which is how
get_path_distance populates the cache). -/
def cache_wf (fe : FeatureExtractor) (cache : Cache) : Prop :=
  ∀ p q v, assocLookup cache (p, q) = some v →
    v = bfs fe p q ∨ v = bfs fe q p

/-- The loop invariant of _bfs while searching for b from a. K is the
depth of the queue's front level: the queue splits into a front run at
depth K (nonempty whenever the queue is) followed by a run at depth
K+1; queue entries carry their true shortest-hop distance; visited
collects exactly the enqueued-so-far positions (duplicate-free, free
cells, never b, containing a); every free cell other than b within
distance K is already visited; and every processed position (visited
but no longer queued) has had all its free neighbours enqueued and is
not adjacent to b. -/
structure BfsInv (fe : FeatureExtractor) (a b : Pos)
    (queue : List (Pos × ℕ)) (visited : List Pos) (K : ℕ) : Prop where
  level : ∃ qf qb, queue = qf ++ qb ∧ (∀ e ∈ qf, e.2 = K) ∧
    (∀ e ∈ qb, e.2 = K + 1) ∧ (qf = [] → qb = [])
  sound : ∀ e ∈ queue, ReachN fe a e.2 e.1
  mindist : ∀ e ∈ queue, ∀ m, ReachN fe a m e.1 → e.2 ≤ m
  qsub : ∀ e ∈ queue, e.1 ∈ visited
  vnodup : visited.Nodup
  qnodup : (queue.map Prod.fst).Nodup
  vfree : ∀ p ∈ visited, free_cell fe p
  vnotb : ∀ p ∈ visited, p ≠ b
  astart : a ∈ visited
  cover : ∀ p m, free_cell fe p → p ≠ b → ReachN fe a m p → m ≤ K →
    p ∈ visited
  closed : ∀ p ∈ visited, p ∉ queue.map Prod.fst →
    ∀ q, adjacent p q → free_cell fe q → q ≠ b → q ∈ visited
  nadjb : ∀ p ∈ visited, p ∉ queue.map Prod.fst → ¬ adjacent p b

/-- A feature extractor whose only obstacle sits at (1,2), exhibiting
_bfs's early target test returning a distance into an obstacle. -/
def feC : FeatureExtractor :=
  { grid_size := 2, num_boxes := 0, box_locations := [],
    obstacles := [((1 : ℤ), (2 : ℤ))] }

/-- np.dot of the weight vector and the feature list. -/
def dot (w phi : List ℚ) : ℚ := (List.zipWith (fun x y => x * y) w phi).sum

/-- ApproxQLearningAgent.get_q_value: the dot product of the weights
with the features of (state, action, last_pos), threading the cache
mutated by the feature extractor. -/
def get_q_value (fe : FeatureExtractor) (w : List ℚ) (cache : Cache)
    (state : State) (action : Action) (last_pos : Option Pos) : ℚ × Cache :=
  let r := get_features fe cache state action last_pos
  (dot w r.1, r.2)

/-- numpy's `weights += k * np.array(features)` elementwise. -/
def vec_update (w : List ℚ) (k : ℚ) (phi : List ℚ) : List ℚ :=
  List.zipWith (fun wi fi => wi + k * fi) w phi

/-- ApproxQLearningAgent.learn: prediction from (state, action,
last_pos); target = reward if next_state is terminal, else reward +
gamma * max over the four actions of the next-state Q-values computed
with last_pos = the current state's position; gradient step on the
TD difference. is_terminal and the action list [up, down, left, right]
come from the agent's GridWorldMDP. -/
def learn (fe : FeatureExtractor) (gamma alpha : ℚ) (w : List ℚ) (cache : Cache)
    (state : State) (action : Action) (reward : ℚ) (next_state : State)
    (last_pos : Option Pos) : List ℚ × Cache :=
  let current_pos := state.1
  let pr := get_q_value fe w cache state action last_pos
  let tc : ℚ × Cache :=
    if is_terminal next_state then (reward, pr.2)
    else
      let q1 := get_q_value fe w pr.2 next_state Action.up (some current_pos)
      let q2 := get_q_value fe w q1.2 next_state Action.down (some current_pos)
      let q3 := get_q_value fe w q2.2 next_state Action.left (some current_pos)
      let q4 := get_q_value fe w q3.2 next_state Action.right (some current_pos)
      (reward + gamma * max (max (max q1.1 q2.1) q3.1) q4.1, q4.2)
  let difference := tc.1 - pr.1
  let ft := get_features fe tc.2 state action last_pos
  (vec_update w (alpha * difference) ft.1, ft.2)

/-- Cache extension: every association present in the first cache is
present, with the same value, in the second. -/
def cache_le (c d : Cache) : Prop :=
  ∀ k v, assocLookup c k = some v → assocLookup d k = some v

/-- A concrete feature extractor for witnesses: 2x2 grid, one box at
(1,2), no obstacles. -/
def feA : FeatureExtractor :=
  { grid_size := 2, num_boxes := 1, box_locations := [(0, ((1 : ℤ), (2 : ℤ)))],
    obstacles := [] }

/-- The cells `(x, y) for x in range(1, grid_size + 1) for y in
range(1, grid_size + 1)` enumerated by both placement generators. -/
def grid_cell_list (gs : ℕ) : List Pos :=
  ((List.range gs).product (List.range gs)).map
    (fun xy => ((xy.1 : ℤ) + 1, (xy.2 : ℤ) + 1))

/-- generate_random_box_locations (mdp_environment.py): free cells are
the grid cells that are neither obstacles nor the start position; if
fewer than num_boxes exist, raise ValueError, otherwise sample
num_boxes of them (random.sample is the explicit `sample` argument)
and return the dict position-to-index via enumerate. -/
def generate_random_box_locations (grid_size num_boxes : ℕ)
    (obstacles : List Pos) (start_pos : Pos)
    (sample : List Pos → ℕ → List Pos) : Except String (List (Pos × ℕ)) :=
  let possible_locations :=
    (grid_cell_list grid_size).filter (fun p => p ∉ obstacles ∧ p ≠ start_pos)
  if possible_locations.length < num_boxes then
    Except.error "Not enough valid locations to place all boxes."
  else
    let chosen_locations := sample possible_locations num_boxes
    Except.ok (chosen_locations.enum.map (fun ip => (ip.2, ip.1)))

/-- generate_random_obstacles (main.py): free cells are the grid cells
outside `{start_pos} | box_locs`; if fewer than num_obstacles exist,
raise ValueError, otherwise return a sample of num_obstacles of them. -/
def generate_random_obstacles (grid_size num_obstacles : ℕ)
    (start_pos : Pos) (box_locs : List Pos)
    (sample : List Pos → ℕ → List Pos) : Except String (List Pos) :=
  let possible_locations :=
    (grid_cell_list grid_size).filter (fun p => ¬ (p = start_pos ∨ p ∈ box_locs))
  if possible_locations.length < num_obstacles then
    Except.error "Not enough valid locations to place all obstacles."
  else
    Except.ok (sample possible_locations num_obstacles)

/-- The specification-side count of free cells for the box generator:
the cardinality of the set of in-bounds cells that are neither
obstacles nor the start position. -/
def free_cell_count (gs : ℕ) (obstacles : List Pos) (start_pos : Pos) : ℕ :=
  (((Finset.Icc (1 : ℤ) gs) ×ˢ (Finset.Icc (1 : ℤ) gs)).filter
    (fun p => p ∉ obstacles ∧ p ≠ start_pos)).card

/-- The specification-side count of free cells for the obstacle
generator: in-bounds cells outside `{start} | box_locs`. -/
def free_cell_count_obs (gs : ℕ) (start_pos : Pos) (box_locs : List Pos) : ℕ :=
  (((Finset.Icc (1 : ℤ) gs) ×ˢ (Finset.Icc (1 : ℤ) gs)).filter
    (fun p => ¬ (p = start_pos ∨ p ∈ box_locs))).card

/-- The deterministic stand-in for random.sample used by witnesses:
take the first k elements. -/
def take_sample (l : List Pos) (k : ℕ) : List Pos := l.take k

/- ------------------------------------------------------------------
Theorems
------------------------------------------------------------------ -/

/-- Helper: an entry of a boolean list that is true stays true after
setting any entry to true. -/
theorem getD_set_true {l : List Bool} {i j : ℕ}
    (h : l.getD i false = true) : (l.set j true).getD i false = true := by
  induction l generalizing i j with
  | nil => simp at h
  | cons b t ih =>
    cases j with
    | zero =>
      cases i with
      | zero => simp
      | succ i => simpa using h
    | succ j =>
      cases i with
      | zero => simpa using h
      | succ i =>
        have := ih (i := i) (j := j) (by simpa using h)
        simpa using this

/-- Helper: setting an entry of a boolean list to true never decreases
the number of true entries. -/
theorem count_true_set_true (l : List Bool) (j : ℕ) :
    l.count true ≤ (l.set j true).count true := by
  induction l generalizing j with
  | nil => simp
  | cons b t ih =>
    cases j with
    | zero =>
      cases b <;> simp [List.count_cons]
    | succ j =>
      have := ih j
      cases b <;> simp [List.count_cons] <;> omega

/-- Helper: the box mask returned by step is either the input mask or
the input mask with one entry set to true. -/
theorem step_mask_cases (env : GridWorldMDP) (s : State) (ls : Option State)
    (a : Action) (d : Bool) (r : ℚ) (c : Bool) :
    ((step env s ls a d r c).1).2 = s.2 ∨
      ∃ j, ((step env s ls a d r c).1).2 = s.2.set j true := by
  unfold step
  split
  · exact Or.inl rfl
  · dsimp only
    split
    · split
      · exact Or.inr ⟨_, rfl⟩
      · exact Or.inl rfl
    · exact Or.inl rfl

/-- C7: along any transition of GridWorldMDP.step, the goal mask is
monotone: a True entry of the input state is still True in the
returned state, and the count of True entries never decreases. -/
theorem step_goalmask_monotone (env : GridWorldMDP) (s : State) (ls : Option State)
    (a : Action) (d : Bool) (r : ℚ) (c : Bool) :
    (∀ i, s.2.getD i false = true →
        ((step env s ls a d r c).1).2.getD i false = true) ∧
      s.2.count true ≤ ((step env s ls a d r c).1).2.count true := by
  rcases step_mask_cases env s ls a d r c with h | ⟨j, h⟩
  · rw [h]; exact ⟨fun i hi => hi, le_refl _⟩
  · rw [h]
    exact ⟨fun i hi => getD_set_true hi, count_true_set_true s.2 j⟩

/-- Witness for C7 at a concrete input: from state ((2,1), [true, false])
in envA, after moving up, box flag 0 is still true and the count of
collected boxes has not decreased. -/
theorem step_goalmask_monotone_witness :
    ((step envA (((2 : ℤ), (1 : ℤ)), [true, false]) none Action.up false 0 true).1).2.getD 0 false
        = true ∧
      ([true, false] : List Bool).count true ≤
        ((step envA (((2 : ℤ), (1 : ℤ)), [true, false]) none Action.up false 0 true).1).2.count true :=
  ⟨(step_goalmask_monotone envA (((2 : ℤ), (1 : ℤ)), [true, false]) none Action.up false 0 true).1
      0 (by decide),
    (step_goalmask_monotone envA (((2 : ℤ), (1 : ℤ)), [true, false]) none Action.up false 0 true).2⟩

/-- C6: step is absorbing on terminal states: it returns (state, 0)
for every action, last_state, deterministic flag and random draw. -/
theorem step_terminal_absorbing (env : GridWorldMDP) (s : State) (ls : Option State)
    (a : Action) (d : Bool) (r : ℚ) (c : Bool)
    (h : is_terminal s = true) :
    step env s ls a d r c = (s, 0) := by
  unfold step
  rw [if_pos h]

/-- Witness for C6: at the concrete terminal state ((1,1), [true]) in
envA, step returns the state unchanged with reward 0. -/
theorem step_terminal_absorbing_witness :
    step envA (((1 : ℤ), (1 : ℤ)), [true]) none Action.down false (1/2) true
      = ((((1 : ℤ), (1 : ℤ)), [true]), 0) :=
  step_terminal_absorbing envA (((1 : ℤ), (1 : ℤ)), [true]) none Action.down false (1/2) true
    (by decide)

/-- C10: GridWorldMDP.step never reads its last_state argument: two
calls differing only in last_state return identical results. -/
theorem step_ignores_last_state (env : GridWorldMDP) (s : State)
    (ls₁ ls₂ : Option State) (a : Action) (d : Bool) (r : ℚ) (c : Bool) :
    step env s ls₁ a d r c = step env s ls₂ a d r c := rfl

/-- C3 counterexample: in envB the input state ((1,1), [false]) is
non-terminal and the executed action left has its candidate next
position (0,1) out of bounds, yet step does not return the stuck
penalty -10: the unchanged position (1,1) holds the uncollected box,
so the collection branch pays 500 instead. -/
theorem step_stuck_counterexample :
    is_terminal (((1 : ℤ), (1 : ℤ)), [false]) = false ∧
      actual_action envB Action.left true 0 true = Action.left ∧
      next_position ((1 : ℤ), (1 : ℤ)) Action.left = ((0 : ℤ), (1 : ℤ)) ∧
      ¬ in_bounds envB.grid_size ((0 : ℤ), (1 : ℤ)) ∧
      step envB (((1 : ℤ), (1 : ℤ)), [false]) none Action.left true 0 true
        = ((((1 : ℤ), (1 : ℤ)), [true]), 500) ∧
      ((500 : ℚ) ≠ -10) := by
  refine ⟨by decide, by decide, by decide, by decide, by decide, by norm_num⟩

/-- C3 amended: if the state is non-terminal and the executed action's
candidate next position is out of bounds or an obstacle, then step
returns a state whose position equals the input position
(unconditionally); and if additionally the input position does not
hold an uncollected box, step returns exactly (state, -10), the stuck
penalty, which is distinct from the ordinary step cost -5. -/
theorem step_stuck_penalty (env : GridWorldMDP) (s : State) (ls : Option State)
    (a : Action) (d : Bool) (r : ℚ) (c : Bool)
    (hterm : is_terminal s = false)
    (hstuck : ¬ in_bounds env.grid_size
          (next_position s.1 (actual_action env a d r c)) ∨
        next_position s.1 (actual_action env a d r c) ∈ env.obstacles) :
    ((step env s ls a d r c).1).1 = s.1 ∧
      ((∀ i, assocLookup env.boxes s.1 = some i → s.2.getD i false = true) →
        step env s ls a d r c = (s, -10) ∧ ((-10 : ℚ) ≠ -5)) := by
  have hcond : ¬ (in_bounds env.grid_size
      (next_position s.1 (actual_action env a d r c)) ∧
      next_position s.1 (actual_action env a d r c) ∉ env.obstacles) := by
    rcases hstuck with h | h
    · exact fun hc => h hc.1
    · exact fun hc => hc.2 h
  constructor
  · unfold step
    rw [if_neg (by simp [hterm])]
    dsimp only
    rw [if_neg hcond]
    cases hb : assocLookup env.boxes s.1 with
    | none => simp [hb]
    | some i =>
      split
      · split <;> rfl
      · rfl
  · intro hbox
    refine ⟨?_, by norm_num⟩
    unfold step
    rw [if_neg (by simp [hterm])]
    dsimp only
    rw [if_neg hcond]
    cases hb : assocLookup env.boxes s.1 with
    | none => simp [hb]
    | some i =>
      have hgi := hbox i hb
      simp only [List.getD, List.get?_eq_getElem?] at hgi
      simp [hb, List.getD, List.get?_eq_getElem?, hgi]

/-- Witness for the amended C3: in envA, moving left from ((1,1), [false])
runs out of bounds; the position is unchanged and, the cell (1,1)
holding no box, step returns the state with the stuck penalty -10. -/
theorem step_stuck_penalty_witness :
    ((step envA (((1 : ℤ), (1 : ℤ)), [false]) none Action.left true 0 true).1).1
        = ((1 : ℤ), (1 : ℤ)) ∧
      step envA (((1 : ℤ), (1 : ℤ)), [false]) none Action.left true 0 true
        = ((((1 : ℤ), (1 : ℤ)), [false]), -10) ∧ ((-10 : ℚ) ≠ -5) :=
  ⟨(step_stuck_penalty envA (((1 : ℤ), (1 : ℤ)), [false]) none Action.left true
      0 true (by decide) (Or.inl (by decide))).1,
    (step_stuck_penalty envA (((1 : ℤ), (1 : ℤ)), [false]) none Action.left true
      0 true (by decide) (Or.inl (by decide))).2
      (fun i hi => by simp [assocLookup, envA] at hi)⟩

/-- Helper: the accumulated delta of a sweep never shrinks. -/
theorem vi_sweep_delta_mono (env : GridWorldMDP) (gamma : ℚ) :
    ∀ (l : List State) (V : State → ℚ) (delta : ℚ),
      delta ≤ (vi_sweep env gamma l V delta).2 := by
  intro l
  induction l with
  | nil => intro V delta; exact le_refl _
  | cons s rest ih =>
    intro V delta
    by_cases h : is_terminal s = true
    · rw [vi_sweep, if_pos h]; exact ih V delta
    · rw [vi_sweep, if_neg h]
      exact le_trans (le_max_left _ _) (ih _ _)

/-- Helper: a sweep leaves states outside its list unchanged. -/
theorem vi_sweep_unchanged (env : GridWorldMDP) (gamma : ℚ) :
    ∀ (l : List State) (V : State → ℚ) (delta : ℚ) (t : State),
      t ∉ l → (vi_sweep env gamma l V delta).1 t = V t := by
  intro l
  induction l with
  | nil => intro V delta t _; rfl
  | cons s rest ih =>
    intro V delta t ht
    have hts : t ≠ s := fun h => ht (h ▸ List.mem_cons_self s rest)
    have htr : t ∉ rest := fun h => ht (List.mem_cons_of_mem s h)
    by_cases h : is_terminal s = true
    · rw [vi_sweep, if_pos h]; exact ih V delta t htr
    · rw [vi_sweep, if_neg h]
      rw [ih _ _ t htr, Function.update_noteq hts]

/-- Helper: with a duplicate-free list and a nonnegative starting delta,
no state moves by more than the final delta during a sweep. -/
theorem vi_sweep_change_bound (env : GridWorldMDP) (gamma : ℚ) :
    ∀ (l : List State) (V : State → ℚ) (delta : ℚ),
      l.Nodup → 0 ≤ delta →
      ∀ t, |(vi_sweep env gamma l V delta).1 t - V t| ≤ (vi_sweep env gamma l V delta).2 := by
  intro l
  induction l with
  | nil =>
    intro V delta _ hd t
    show |V t - V t| ≤ delta
    simpa using hd
  | cons s rest ih =>
    intro V delta hnd hd t
    have hs : s ∉ rest := (List.nodup_cons.mp hnd).1
    have hr : rest.Nodup := (List.nodup_cons.mp hnd).2
    by_cases h : is_terminal s = true
    · rw [vi_sweep, if_pos h]; exact ih V delta hr hd t
    · rw [vi_sweep, if_neg h]
      dsimp only
      rcases eq_or_ne t s with rfl | hts
      · rw [vi_sweep_unchanged env gamma rest _ _ t hs, Function.update_same]
        refine le_trans ?_ (vi_sweep_delta_mono env gamma rest _ _)
        rw [abs_sub_comm]
        exact le_max_right _ _
      · have h3 := ih (Function.update V s (bestValue env gamma V s))
          (max delta |V s - bestValue env gamma V s|) hr
          (le_trans hd (le_max_left _ _)) t
        rwa [Function.update_noteq hts] at h3

/-- Helper: the one-step lookahead is gamma-Lipschitz in the value
function. -/
theorem q_lookahead_diff (env : GridWorldMDP) (gamma : ℚ) (V₁ V₂ : State → ℚ)
    (s : State) (a : Action) (c : ℚ) (hγ : 0 ≤ gamma)
    (h : ∀ t, |V₁ t - V₂ t| ≤ c) :
    |q_lookahead env gamma V₁ s a - q_lookahead env gamma V₂ s a| ≤ gamma * c := by
  unfold q_lookahead
  have : (step_det env s a).2 + gamma * V₁ (step_det env s a).1 -
      ((step_det env s a).2 + gamma * V₂ (step_det env s a).1) =
      gamma * (V₁ (step_det env s a).1 - V₂ (step_det env s a).1) := by ring
  rw [this, abs_mul, abs_of_nonneg hγ]
  exact mul_le_mul_of_nonneg_left (h _) hγ

/-- Helper: the max of the four lookaheads is gamma-Lipschitz in the
value function. -/
theorem bestValue_diff (env : GridWorldMDP) (gamma : ℚ) (V₁ V₂ : State → ℚ)
    (s : State) (c : ℚ) (hγ : 0 ≤ gamma) (h : ∀ t, |V₁ t - V₂ t| ≤ c) :
    |bestValue env gamma V₁ s - bestValue env gamma V₂ s| ≤ gamma * c := by
  unfold bestValue
  have q1 := q_lookahead_diff env gamma V₁ V₂ s Action.up c hγ h
  have q2 := q_lookahead_diff env gamma V₁ V₂ s Action.down c hγ h
  have q3 := q_lookahead_diff env gamma V₁ V₂ s Action.left c hγ h
  have q4 := q_lookahead_diff env gamma V₁ V₂ s Action.right c hγ h
  have h12 := le_trans (abs_max_sub_max_le_max _ _ _ _) (max_le q1 q2)
  have h123 := le_trans (abs_max_sub_max_le_max _ _ _ _) (max_le h12 q3)
  exact le_trans (abs_max_sub_max_le_max _ _ _ _) (max_le h123 q4)

/-- Helper: after a sweep over a duplicate-free list, every non-terminal
state of the list has Bellman residual at most gamma times the final
delta. -/
theorem vi_sweep_residual (env : GridWorldMDP) (gamma : ℚ) (hγ : 0 ≤ gamma) :
    ∀ (l : List State) (V : State → ℚ) (delta : ℚ),
      l.Nodup → 0 ≤ delta →
      ∀ s ∈ l, is_terminal s = false →
        |(vi_sweep env gamma l V delta).1 s -
            bestValue env gamma (vi_sweep env gamma l V delta).1 s| ≤
          gamma * (vi_sweep env gamma l V delta).2 := by
  intro l
  induction l with
  | nil => intro V delta _ _ s hs; exact absurd hs (List.not_mem_nil s)
  | cons a rest ih =>
    intro V delta hnd hd s hs hsterm
    have ha : a ∉ rest := (List.nodup_cons.mp hnd).1
    have hr : rest.Nodup := (List.nodup_cons.mp hnd).2
    by_cases h : is_terminal a = true
    · rw [vi_sweep, if_pos h]
      rcases List.mem_cons.mp hs with rfl | hsr
      · rw [h] at hsterm; exact absurd hsterm (by simp)
      · exact ih V delta hr hd s hsr hsterm
    · rw [vi_sweep, if_neg h]
      dsimp only
      have hd₁0 : 0 ≤ max delta |V a - bestValue env gamma V a| :=
        le_trans hd (le_max_left _ _)
      rcases List.mem_cons.mp hs with rfl | hsr
      · -- the state updated at this step of the sweep
        have hval : (vi_sweep env gamma rest
            (Function.update V s (bestValue env gamma V s))
            (max delta |V s - bestValue env gamma V s|)).1 s
              = bestValue env gamma V s := by
          rw [vi_sweep_unchanged env gamma rest _ _ s ha, Function.update_same]
        rw [hval]
        have hbound : ∀ t, |V t - (vi_sweep env gamma rest
            (Function.update V s (bestValue env gamma V s))
            (max delta |V s - bestValue env gamma V s|)).1 t| ≤
            (vi_sweep env gamma rest
              (Function.update V s (bestValue env gamma V s))
              (max delta |V s - bestValue env gamma V s|)).2 := by
          intro t
          rcases eq_or_ne t s with rfl | hts
          · rw [vi_sweep_unchanged env gamma rest _ _ t ha, Function.update_same]
            exact le_trans (le_max_right delta _)
              (vi_sweep_delta_mono env gamma rest _ _)
          · have h3 := vi_sweep_change_bound env gamma rest
              (Function.update V s (bestValue env gamma V s))
              (max delta |V s - bestValue env gamma V s|) hr hd₁0 t
            rw [Function.update_noteq hts] at h3
            rwa [abs_sub_comm]
        exact bestValue_diff env gamma V _ s _ hγ hbound
      · exact ih (Function.update V a (bestValue env gamma V a))
          (max delta |V a - bestValue env gamma V a|) hr hd₁0 s hsr hsterm

/-- C1 (spec-modelled lookahead): if the sweep loop of
`_run_value_iteration` exits because its final sweep produced
delta < theta, then every non-terminal state of the enumerated state
space satisfies the Bellman equation of the deterministic one-step
lookahead to within theta: |V(s) - max_a [reward(s,a) + gamma *
V(next(s,a))]| <= theta (for a discount 0 <= gamma <= 1). -/
theorem value_iteration_bellman (env : GridWorldMDP) (gamma theta : ℚ)
    (states : List State) (V0 V : State → ℚ) (delta : ℚ)
    (hγ0 : 0 ≤ gamma) (hγ1 : gamma ≤ 1) (hnd : states.Nodup)
    (hrun : vi_sweep env gamma states V0 0 = (V, delta)) (hδ : delta < theta) :
    ∀ s ∈ states, is_terminal s = false →
      |V s - bestValue env gamma V s| ≤ theta := by
  intro s hs hterm
  have h0 : (0 : ℚ) ≤ delta := by
    have := vi_sweep_delta_mono env gamma states V0 0
    rwa [hrun] at this
  have h1 := vi_sweep_residual env gamma hγ0 states V0 0 hnd (le_refl 0) s hs hterm
  rw [hrun] at h1
  have h2 : gamma * delta ≤ delta := by
    calc gamma * delta ≤ 1 * delta := mul_le_mul_of_nonneg_right hγ1 h0
    _ = delta := one_mul delta
  exact le_trans h1 (le_trans h2 (le_of_lt hδ))

/-- Witness for C1: running one sweep on the 1x1 witness environment
from V0W yields delta 0 < 1, and the non-terminal state satisfies the
Bellman equation within theta = 1. -/
theorem value_iteration_bellman_witness :
    |VW (((1 : ℤ), (1 : ℤ)), [false]) -
        bestValue envW 1 VW (((1 : ℤ), (1 : ℤ)), [false])| ≤ 1 :=
  value_iteration_bellman envW 1 1 statesW V0W VW deltaW (by norm_num)
    (le_refl 1) (by decide) rfl
    (by
      show (vi_sweep envW 1 statesW V0W 0).2 < 1
      norm_num [vi_sweep, statesW, V0W, envW, bestValue, q_lookahead, step_det,
        step, is_terminal, actual_action, next_position, in_bounds, move_map,
        assocLookup, Function.update_apply])
    (((1 : ℤ), (1 : ℤ)), [false]) (by decide) (by decide)

/-- C4: the fifth feature (index 4, the reversal indicator) is 1.0
whenever a previous position P is known and the action's resulting
position equals P, and is 0.0 whenever no previous position is known. -/
theorem get_features_reversal (fe : FeatureExtractor) (cache : Cache)
    (s : State) (a : Action) (lp : Option Pos) :
    (∀ P : Pos, lp = some P → next_position s.1 a = P →
        ((get_features fe cache s a lp).1).getD 4 0 = 1) ∧
      (lp = none → ((get_features fe cache s a lp).1).getD 4 0 = 0) := by
  constructor
  · intro P hlp hnp
    subst hlp
    unfold get_features
    simp [List.getD, hnp]
  · intro hlp
    subst hlp
    unfold get_features
    simp [List.getD]

/-- Witness for C4: from ((1,1), [false]) with previous position (1,2),
moving up lands exactly on (1,2) and the reversal feature is 1. -/
theorem get_features_reversal_witness :
    ((get_features feA [] (((1 : ℤ), (1 : ℤ)), [false]) Action.up
        (some ((1 : ℤ), (2 : ℤ)))).1).getD 4 0 = 1 :=
  (get_features_reversal feA [] (((1 : ℤ), (1 : ℤ)), [false]) Action.up
      (some ((1 : ℤ), (2 : ℤ)))).1
    ((1 : ℤ), (2 : ℤ)) rfl (by decide)

/-- Helper for C2: the fourth feature (index 3, the collection
indicator) is 0.0 for every input, because the guard compares the
resulting position with the integer keys of box_locations. -/
theorem get_features_collection_always_zero (fe : FeatureExtractor)
    (cache : Cache) (s : State) (a : Action) (lp : Option Pos) :
    ((get_features fe cache s a lp).1).getD 3 0 = 0 := by
  unfold get_features
  simp [List.getD, dict_has_pos_key, key_matches_pos]

/-- C2 (code bug): at the concrete input below the resulting position
(1,2) is the uncollected box 0's cell, the move stays in bounds and
hits no obstacle, so the specified collection indicator is 1.0 — but
get_features returns 0.0 (its membership test compares the position
against the integer box indices and never fires). -/
theorem get_features_collection_bug :
    next_position ((1 : ℤ), (1 : ℤ)) Action.up = ((1 : ℤ), (2 : ℤ)) ∧
      assocLookup feA.box_locations 0 = some ((1 : ℤ), (2 : ℤ)) ∧
      ([false] : List Bool).getD 0 false = false ∧
      in_bounds feA.grid_size ((1 : ℤ), (2 : ℤ)) ∧
      ((1 : ℤ), (2 : ℤ)) ∉ feA.obstacles ∧
      ((get_features feA [] (((1 : ℤ), (1 : ℤ)), [false]) Action.up none).1).getD 3 0
        = 0 := by
  refine ⟨by decide, by decide, by decide, by decide, by decide, ?_⟩
  exact get_features_collection_always_zero feA [] _ Action.up none

/-- Helper: membership in the enumerated grid cells is exactly the
bounds predicate. -/
theorem grid_cell_list_mem (gs : ℕ) (p : Pos) :
    p ∈ grid_cell_list gs ↔ in_bounds (gs : ℤ) p := by
  unfold grid_cell_list in_bounds
  simp only [List.mem_map, List.pair_mem_product, List.mem_range, Prod.exists]
  constructor
  · rintro ⟨x, y, ⟨hx, hy⟩, rfl⟩
    refine ⟨by omega, by omega, by omega, by omega⟩
  · rintro ⟨h1, h2, h3, h4⟩
    refine ⟨(p.1 - 1).toNat, (p.2 - 1).toNat, ⟨by omega, by omega⟩, ?_⟩
    have e1 : ((p.1 - 1).toNat : ℤ) + 1 = p.1 := by omega
    have e2 : ((p.2 - 1).toNat : ℤ) + 1 = p.2 := by omega
    rw [e1, e2]

/-- Helper: the enumerated grid cells are pairwise distinct. -/
theorem grid_cell_list_nodup (gs : ℕ) : (grid_cell_list gs).Nodup := by
  unfold grid_cell_list
  refine List.Nodup.map ?_
    (List.Nodup.product (List.nodup_range gs) (List.nodup_range gs))
  intro xy₁ xy₂ h
  have h1 := congrArg Prod.fst h
  have h2 := congrArg Prod.snd h
  simp only at h1 h2
  have e1 : xy₁.1 = xy₂.1 := by omega
  have e2 : xy₁.2 = xy₂.2 := by omega
  exact Prod.ext e1 e2

/-- Helper: the length of the filtered cell list is the cardinality of
the corresponding set of free cells. -/
theorem grid_filter_length (gs : ℕ) (pred : Pos → Prop) [DecidablePred pred] :
    ((grid_cell_list gs).filter (fun p => decide (pred p))).length
      = (((Finset.Icc (1 : ℤ) gs) ×ˢ (Finset.Icc (1 : ℤ) gs)).filter pred).card := by
  have hnd : ((grid_cell_list gs).filter (fun p => decide (pred p))).Nodup :=
    (grid_cell_list_nodup gs).filter _
  rw [← List.toFinset_card_of_nodup hnd]
  congr 1
  apply Finset.ext
  intro q
  simp only [List.mem_toFinset, List.mem_filter, Finset.mem_filter,
    Finset.mem_product, Finset.mem_Icc, grid_cell_list_mem, in_bounds,
    decide_eq_true_eq]
  tauto

/-- C9: each placement generator fails exactly when the number of free
cells (grid cells excluding obstacles and the start for the box
generator; excluding start and box cells for the obstacle generator)
is below the requested count, and on success returns exactly the
requested number of distinct free cells; `sample` is random.sample,
assumed to return k distinct elements of its input when k does not
exceed the input length. -/
theorem placement_generators_spec (gs n m : ℕ) (obstacles : List Pos)
    (start_pos : Pos) (box_locs : List Pos)
    (sample : List Pos → ℕ → List Pos)
    (hsample : ∀ (l : List Pos) (k : ℕ), l.Nodup → k ≤ l.length →
      (sample l k).length = k ∧ (sample l k).Nodup ∧ ∀ p ∈ sample l k, p ∈ l) :
    ((∃ e, generate_random_box_locations gs n obstacles start_pos sample
          = Except.error e) ↔ free_cell_count gs obstacles start_pos < n) ∧
      (∀ boxes, generate_random_box_locations gs n obstacles start_pos sample
          = Except.ok boxes →
        boxes.length = n ∧ (boxes.map Prod.fst).Nodup ∧
          ∀ p ∈ boxes.map Prod.fst,
            in_bounds (gs : ℤ) p ∧ p ∉ obstacles ∧ p ≠ start_pos) ∧
      ((∃ e, generate_random_obstacles gs m start_pos box_locs sample
          = Except.error e) ↔ free_cell_count_obs gs start_pos box_locs < m) ∧
      (∀ obs, generate_random_obstacles gs m start_pos box_locs sample
          = Except.ok obs →
        obs.length = m ∧ obs.Nodup ∧
          ∀ p ∈ obs, in_bounds (gs : ℤ) p ∧ ¬ (p = start_pos ∨ p ∈ box_locs)) := by
  have hlen₁ : ((grid_cell_list gs).filter
      (fun p => decide (p ∉ obstacles ∧ p ≠ start_pos))).length
        = free_cell_count gs obstacles start_pos :=
    grid_filter_length gs (fun p => p ∉ obstacles ∧ p ≠ start_pos)
  have hlen₂ : ((grid_cell_list gs).filter
      (fun p => decide (¬ (p = start_pos ∨ p ∈ box_locs)))).length
        = free_cell_count_obs gs start_pos box_locs :=
    grid_filter_length gs (fun p => ¬ (p = start_pos ∨ p ∈ box_locs))
  have hnd₁ : ((grid_cell_list gs).filter
      (fun p => decide (p ∉ obstacles ∧ p ≠ start_pos))).Nodup :=
    (grid_cell_list_nodup gs).filter _
  have hnd₂ : ((grid_cell_list gs).filter
      (fun p => decide (¬ (p = start_pos ∨ p ∈ box_locs)))).Nodup :=
    (grid_cell_list_nodup gs).filter _
  refine ⟨?_, ?_, ?_, ?_⟩
  · unfold generate_random_box_locations
    by_cases h : ((grid_cell_list gs).filter
        (fun p => decide (p ∉ obstacles ∧ p ≠ start_pos))).length < n
    · rw [if_pos h]
      exact ⟨fun _ => by omega, fun _ => ⟨_, rfl⟩⟩
    · rw [if_neg h]
      constructor
      · rintro ⟨e, he⟩
        exact Except.noConfusion he
      · intro hc
        exact absurd hc (by omega)
  · intro boxes hb
    unfold generate_random_box_locations at hb
    by_cases h : ((grid_cell_list gs).filter
        (fun p => decide (p ∉ obstacles ∧ p ≠ start_pos))).length < n
    · rw [if_pos h] at hb
      exact Except.noConfusion hb
    · rw [if_neg h] at hb
      have hb' := Except.ok.inj hb
      obtain ⟨hl, hnd, hmem⟩ := hsample _ n hnd₁ (by omega)
      have hfst : boxes.map Prod.fst
          = sample ((grid_cell_list gs).filter
              (fun p => decide (p ∉ obstacles ∧ p ≠ start_pos))) n := by
        rw [← hb']
        rw [List.map_map]
        have hcomp : (Prod.fst ∘ fun ip : ℕ × Pos => (ip.2, ip.1)) = Prod.snd := rfl
        rw [hcomp, List.enum_map_snd]
      refine ⟨?_, ?_, ?_⟩
      · rw [← hb', List.length_map, List.enum_length]
        exact hl
      · rw [hfst]; exact hnd
      · intro p hp
        rw [hfst] at hp
        have hp' := hmem p hp
        rw [List.mem_filter] at hp'
        exact ⟨(grid_cell_list_mem gs p).mp hp'.1, of_decide_eq_true hp'.2⟩
  · unfold generate_random_obstacles
    by_cases h : ((grid_cell_list gs).filter
        (fun p => decide (¬ (p = start_pos ∨ p ∈ box_locs)))).length < m
    · rw [if_pos h]
      exact ⟨fun _ => by omega, fun _ => ⟨_, rfl⟩⟩
    · rw [if_neg h]
      constructor
      · rintro ⟨e, he⟩
        exact Except.noConfusion he
      · intro hc
        exact absurd hc (by omega)
  · intro obs ho
    unfold generate_random_obstacles at ho
    by_cases h : ((grid_cell_list gs).filter
        (fun p => decide (¬ (p = start_pos ∨ p ∈ box_locs)))).length < m
    · rw [if_pos h] at ho
      exact Except.noConfusion ho
    · rw [if_neg h] at ho
      have ho' := Except.ok.inj ho
      obtain ⟨hl, hnd, hmem⟩ := hsample _ m hnd₂ (by omega)
      refine ⟨by rw [← ho']; exact hl, by rw [← ho']; exact hnd, ?_⟩
      intro p hp
      rw [← ho'] at hp
      have hp' := hmem p hp
      rw [List.mem_filter] at hp'
      exact ⟨(grid_cell_list_mem gs p).mp hp'.1, of_decide_eq_true hp'.2⟩

/-- Witness for C9: on a 2x2 grid with an obstacle at (2,2) and start
(1,1), two free cells remain for boxes, so requesting three boxes
fails while requesting two obstacles outside start and the box (2,1)
succeeds with exactly two cells. -/
theorem placement_generators_spec_witness :
    (∃ e, generate_random_box_locations 2 3 [((2 : ℤ), (2 : ℤ))]
        ((1 : ℤ), (1 : ℤ)) take_sample = Except.error e) := by
  have h := placement_generators_spec 2 3 0 [((2 : ℤ), (2 : ℤ))]
    ((1 : ℤ), (1 : ℤ)) [] take_sample
    (fun l k hnd hk => ⟨by simp [take_sample, hk],
      List.Nodup.sublist (List.take_sublist k l) hnd,
      fun p hp => (List.take_sublist k l).subset hp⟩)
  exact h.1.mpr (by decide)

/-- Helper: cache extension is reflexive. -/
theorem cache_le_refl (c : Cache) : cache_le c c := fun _ _ h => h

/-- Helper: cache extension is transitive. -/
theorem cache_le_trans {c d e : Cache} (h₁ : cache_le c d) (h₂ : cache_le d e) :
    cache_le c e := fun k v h => h₂ k v (h₁ k v h)

/-- Helper: a cache hit returns the stored value and leaves the cache
unchanged. -/
theorem get_path_distance_found (fe : FeatureExtractor) (c : Cache)
    (a b : Pos) (v : Option ℕ)
    (h : assocLookup c (sorted_key a b) = some v) :
    get_path_distance fe c a b = (v, c) := by
  unfold get_path_distance
  dsimp only
  rw [h]

/-- Helper: get_path_distance only extends the cache. -/
theorem get_path_distance_le (fe : FeatureExtractor) (c : Cache) (a b : Pos) :
    cache_le c (get_path_distance fe c a b).2 := by
  unfold get_path_distance
  dsimp only
  cases h : assocLookup c (sorted_key a b) with
  | some v => exact cache_le_refl c
  | none =>
    intro k v hk
    show (if sorted_key a b = k then some (bfs fe a b) else assocLookup c k)
        = some v
    rw [if_neg]
    · exact hk
    · intro hkey
      rw [hkey] at h
      rw [h] at hk
      exact Option.noConfusion hk

/-- Helper: after a call, the sorted key is cached with the returned
value. -/
theorem get_path_distance_mem (fe : FeatureExtractor) (c : Cache) (a b : Pos) :
    assocLookup (get_path_distance fe c a b).2 (sorted_key a b)
      = some (get_path_distance fe c a b).1 := by
  unfold get_path_distance
  dsimp only
  cases h : assocLookup c (sorted_key a b) with
  | some v => exact h
  | none =>
    show (if sorted_key a b = sorted_key a b then some (bfs fe a b)
        else assocLookup c (sorted_key a b)) = some (bfs fe a b)
    rw [if_pos rfl]

/-- Helper: in any extension of a cache holding the key, the call
returns the stored value and changes nothing. -/
theorem get_path_distance_stable (fe : FeatureExtractor) (c d : Cache)
    (a b : Pos)
    (hle : cache_le (get_path_distance fe c a b).2 d) :
    get_path_distance fe d a b = ((get_path_distance fe c a b).1, d) :=
  get_path_distance_found fe d a b _
    (hle _ _ (get_path_distance_mem fe c a b))

/-- Helper: the distance-list comprehension only extends the cache. -/
theorem dist_list_le (fe : FeatureExtractor) :
    ∀ (bs : List Pos) (c : Cache) (p : Pos),
      cache_le c (dist_list fe c p bs).2 := by
  intro bs
  induction bs with
  | nil => intro c p; exact cache_le_refl c
  | cons b bs ih =>
    intro c p
    exact cache_le_trans (get_path_distance_le fe c p b)
      (ih (get_path_distance fe c p b).2 p)

/-- Helper: rerunning the distance-list comprehension in any extension
of its result cache returns the same distances and changes nothing. -/
theorem dist_list_stable (fe : FeatureExtractor) :
    ∀ (bs : List Pos) (c : Cache) (p : Pos) (d : Cache),
      cache_le (dist_list fe c p bs).2 d →
      dist_list fe d p bs = ((dist_list fe c p bs).1, d) := by
  intro bs
  induction bs with
  | nil => intro c p d _; rfl
  | cons b bs ih =>
    intro c p d hle
    have hr2 : cache_le (get_path_distance fe c p b).2
        (dist_list fe (get_path_distance fe c p b).2 p bs).2 :=
      dist_list_le fe bs (get_path_distance fe c p b).2 p
    have hle' : cache_le (get_path_distance fe c p b).2 d :=
      cache_le_trans hr2 hle
    have h1 : get_path_distance fe d p b = ((get_path_distance fe c p b).1, d) :=
      get_path_distance_stable fe c d p b hle'
    have h2 : dist_list fe d p bs
        = ((dist_list fe (get_path_distance fe c p b).2 p bs).1, d) :=
      ih (get_path_distance fe c p b).2 p d hle
    show (let r := get_path_distance fe d p b
          let rest := dist_list fe r.2 p bs
          (r.1 :: rest.1, rest.2))
        = ((dist_list fe c p (b :: bs)).1, d)
    rw [h1]
    dsimp only
    rw [h2]
    rfl

/-- Helper: dist_to_nearest only extends the cache. -/
theorem dist_to_nearest_le (fe : FeatureExtractor) (c : Cache) (p : Pos)
    (u : List Pos) : cache_le c (dist_to_nearest fe c p u).2 := by
  unfold dist_to_nearest
  split
  · exact cache_le_refl c
  · exact dist_list_le fe u c p

/-- Helper: rerunning dist_to_nearest in any extension of its result
cache returns the same distance and changes nothing. -/
theorem dist_to_nearest_stable (fe : FeatureExtractor) (c : Cache) (p : Pos)
    (u : List Pos) (d : Cache)
    (hle : cache_le (dist_to_nearest fe c p u).2 d) :
    dist_to_nearest fe d p u = ((dist_to_nearest fe c p u).1, d) := by
  unfold dist_to_nearest at hle ⊢
  by_cases hu : u.isEmpty
  · rw [if_pos hu] at hle
    rw [if_pos hu, if_pos hu]
  · rw [if_neg hu] at hle
    dsimp only at hle
    rw [if_neg hu, if_neg hu]
    dsimp only
    rw [dist_list_stable fe u c p d hle]

/-- Helper: get_features only extends the cache. -/
theorem get_features_le (fe : FeatureExtractor) (c : Cache) (s : State)
    (a : Action) (lp : Option Pos) :
    cache_le c (get_features fe c s a lp).2 := by
  unfold get_features
  dsimp only
  split
  · exact cache_le_trans (dist_to_nearest_le fe c s.1 (uncollected_boxes fe s.2))
      (dist_to_nearest_le fe _ _ _)
  · exact dist_to_nearest_le fe c s.1 (uncollected_boxes fe s.2)

/-- Helper: recomputing get_features in any extension of its result
cache yields the same feature vector and changes nothing: every
distance query of the recomputation hits the cache entries the first
run guaranteed. -/
theorem get_features_stable (fe : FeatureExtractor) (c : Cache) (s : State)
    (a : Action) (lp : Option Pos) (d : Cache)
    (hle : cache_le (get_features fe c s a lp).2 d) :
    get_features fe d s a lp = ((get_features fe c s a lp).1, d) := by
  unfold get_features at hle ⊢
  dsimp only at hle ⊢
  by_cases hcol : collision_flag fe (next_position s.1 a) = false
  · rw [if_pos hcol] at hle
    rw [if_pos hcol, if_pos hcol]
    have hble : cache_le (dist_to_nearest fe c s.1 (uncollected_boxes fe s.2)).2 d :=
      cache_le_trans (dist_to_nearest_le fe _ _ _) hle
    have hbd := dist_to_nearest_stable fe c s.1 (uncollected_boxes fe s.2) d hble
    have had := dist_to_nearest_stable fe
      (dist_to_nearest fe c s.1 (uncollected_boxes fe s.2)).2
      (next_position s.1 a) (uncollected_boxes fe s.2) d hle
    rw [hbd]
    dsimp only
    rw [had]
  · rw [if_neg hcol] at hle
    dsimp only at hle
    rw [if_neg hcol, if_neg hcol]
    have hbd := dist_to_nearest_stable fe c s.1 (uncollected_boxes fe s.2) d hle
    rw [hbd]

/-- Helper: get_q_value only extends the cache. -/
theorem get_q_value_le (fe : FeatureExtractor) (w : List ℚ) (c : Cache)
    (s : State) (a : Action) (lp : Option Pos) :
    cache_le c (get_q_value fe w c s a lp).2 :=
  get_features_le fe c s a lp

/-- C8: ApproxQLearningAgent.learn performs exactly the TD update
weights + alpha * (target - prediction) * features(state, action,
last_pos), where the features and the prediction are those of the
entry cache (the final feature recomputation returns the same vector,
by cache stability), target = reward when next_state is terminal, and
otherwise target = reward + gamma * max over the four actions of the
next-state Q-values taken with the current state's position as the
previous position. -/
theorem learn_td_update (fe : FeatureExtractor) (gamma alpha : ℚ) (w : List ℚ)
    (c : Cache) (s : State) (a : Action) (reward : ℚ) (s' : State)
    (lp : Option Pos) :
    (learn fe gamma alpha w c s a reward s' lp).1 =
      (let phi := (get_features fe c s a lp).1
       let c1 := (get_features fe c s a lp).2
       let prediction := dot w phi
       let q1 := get_q_value fe w c1 s' Action.up (some s.1)
       let q2 := get_q_value fe w q1.2 s' Action.down (some s.1)
       let q3 := get_q_value fe w q2.2 s' Action.left (some s.1)
       let q4 := get_q_value fe w q3.2 s' Action.right (some s.1)
       let target : ℚ :=
         if is_terminal s' then reward
         else reward + gamma * max (max (max q1.1 q2.1) q3.1) q4.1
       vec_update w (alpha * (target - prediction)) phi) := by
  unfold learn get_q_value
  dsimp only
  by_cases hterm : is_terminal s' = true
  · rw [if_pos hterm, if_pos hterm]
    dsimp only
    rw [get_features_stable fe c s a lp (get_features fe c s a lp).2
      (cache_le_refl _)]
  · rw [if_neg hterm, if_neg hterm]
    dsimp only
    have hchain : cache_le (get_features fe c s a lp).2
        (get_features fe
          (get_features fe
            (get_features fe
              (get_features fe (get_features fe c s a lp).2 s' Action.up
                (some s.1)).2
              s' Action.down (some s.1)).2
            s' Action.left (some s.1)).2
          s' Action.right (some s.1)).2 := by
      refine cache_le_trans (get_features_le fe _ s' Action.up (some s.1)) ?_
      refine cache_le_trans (get_features_le fe _ s' Action.down (some s.1)) ?_
      refine cache_le_trans (get_features_le fe _ s' Action.left (some s.1)) ?_
      exact get_features_le fe _ s' Action.right (some s.1)
    rw [get_features_stable fe c s a lp _ hchain]

/-- Helper: both endpoints of a valid walk are free cells. -/
theorem reach_free {fe : FeatureExtractor} {a : Pos} {n : ℕ} {b : Pos}
    (h : ReachN fe a n b) : free_cell fe a ∧ free_cell fe b := by
  induction h with
  | refl ha => exact ⟨ha, ha⟩
  | step _ _ hq ih => exact ⟨ih.1, hq⟩

/-- Helper: a zero-hop walk ends where it starts. -/
theorem reach_zero {fe : FeatureExtractor} {a b : Pos}
    (h : ReachN fe a 0 b) : b = a := by
  cases h
  rfl

/-- Helper: inverting the last hop of a walk. -/
theorem reach_succ_inv {fe : FeatureExtractor} {a b : Pos} {n : ℕ}
    (h : ReachN fe a (n + 1) b) :
    ∃ p, ReachN fe a n p ∧ adjacent p b ∧ free_cell fe b := by
  cases h with
  | step hp hadj hb => exact ⟨_, hp, hadj, hb⟩

/-- Helper: 4-adjacency is symmetric. -/
theorem adjacent_symm {p q : Pos} (h : adjacent p q) : adjacent q p := by
  rcases h with ⟨dxy, hmem, rfl⟩
  simp only [bfs_deltas, List.mem_cons, List.not_mem_nil, or_false] at hmem
  refine ⟨(-dxy.1, -dxy.2), ?_, ?_⟩
  · rcases hmem with rfl | rfl | rfl | rfl <;> decide
  · dsimp only
    refine Prod.ext ?_ ?_ <;> dsimp only <;> ring

/-- Helper: a walk can be extended by one hop at its start. -/
theorem reach_prepend {fe : FeatureExtractor} {q p r : Pos} {n : ℕ}
    (hadj : adjacent q p) (hq : free_cell fe q)
    (h : ReachN fe p n r) : ReachN fe q (n + 1) r := by
  induction h with
  | refl hp => exact ReachN.step (ReachN.refl hq) hadj hp
  | step _ hadj' hr' ih => exact ReachN.step ih hadj' hr'

/-- Helper: valid walks reverse. -/
theorem reach_symm {fe : FeatureExtractor} {a b : Pos} {n : ℕ}
    (h : ReachN fe a n b) : ReachN fe b n a := by
  induction h with
  | refl ha => exact ReachN.refl ha
  | step hp hadj hq ih => exact reach_prepend (adjacent_symm hadj) hq ih

/-- Helper: if the neighbour scan returns early, it returns depth + 1
and the target is one of the scanned neighbours. -/
theorem bfs_expand_error (fe : FeatureExtractor) (b : Pos) (K : ℕ) (p : Pos) :
    ∀ (ds : List (ℤ × ℤ)) (q : List (Pos × ℕ)) (vis : List Pos) (n : ℕ),
      bfs_expand fe b K p ds q vis = Except.error n →
      n = K + 1 ∧ ∃ dxy ∈ ds, b = (p.1 + dxy.1, p.2 + dxy.2) := by
  intro ds
  induction ds with
  | nil =>
    intro q vis n h
    exact Except.noConfusion h
  | cons dxy ds ih =>
    intro q vis n h
    unfold bfs_expand at h
    dsimp only at h
    by_cases hnp : ((p.1 + dxy.1, p.2 + dxy.2) : Pos) = b
    · rw [if_pos hnp] at h
      have hn := (Except.error.inj h).symm
      exact ⟨hn, dxy, List.mem_cons_self dxy ds, hnp.symm⟩
    · rw [if_neg hnp] at h
      by_cases hc : in_bounds fe.grid_size (p.1 + dxy.1, p.2 + dxy.2) ∧
          (p.1 + dxy.1, p.2 + dxy.2) ∉ fe.obstacles ∧
          (p.1 + dxy.1, p.2 + dxy.2) ∉ vis
      · rw [if_pos hc] at h
        obtain ⟨hn, dxy', hmem, heq⟩ := ih _ _ _ h
        exact ⟨hn, dxy', List.mem_cons_of_mem dxy hmem, heq⟩
      · rw [if_neg hc] at h
        obtain ⟨hn, dxy', hmem, heq⟩ := ih _ _ _ h
        exact ⟨hn, dxy', List.mem_cons_of_mem dxy hmem, heq⟩

/-- Helper: if the neighbour scan completes, the queue and visited
lists are extended by the same batch of fresh positions: each is an
unvisited free neighbour of p (other than the target) enqueued at
depth K+1; no scanned neighbour equals the target; and every scanned
free neighbour ends up visited. -/
theorem bfs_expand_ok (fe : FeatureExtractor) (b : Pos) (K : ℕ) (p : Pos) :
    ∀ (ds : List (ℤ × ℤ)) (q : List (Pos × ℕ)) (vis : List Pos)
      (q' : List (Pos × ℕ)) (vis' : List Pos),
      bfs_expand fe b K p ds q vis = Except.ok (q', vis') →
      ∃ new : List Pos,
        q' = q ++ new.map (fun x => (x, K + 1)) ∧
        vis' = vis ++ new ∧
        new.Nodup ∧
        (∀ x ∈ new, x ∉ vis ∧ free_cell fe x ∧ x ≠ b ∧
          ∃ dxy ∈ ds, x = (p.1 + dxy.1, p.2 + dxy.2)) ∧
        (∀ dxy ∈ ds, ((p.1 + dxy.1, p.2 + dxy.2) : Pos) ≠ b) ∧
        (∀ dxy ∈ ds, free_cell fe (p.1 + dxy.1, p.2 + dxy.2) →
          ((p.1 + dxy.1, p.2 + dxy.2) : Pos) ∈ vis') := by
  intro ds
  induction ds with
  | nil =>
    intro q vis q' vis' h
    have h' := Except.ok.inj h
    have hq : q = q' := congrArg Prod.fst h'
    have hv : vis = vis' := congrArg Prod.snd h'
    refine ⟨[], by simp [hq.symm], by simp [hv.symm], List.nodup_nil, ?_, ?_, ?_⟩
    · intro x hx; exact absurd hx (List.not_mem_nil x)
    · intro dxy hd; exact absurd hd (List.not_mem_nil dxy)
    · intro dxy hd; exact absurd hd (List.not_mem_nil dxy)
  | cons dxy ds ih =>
    intro q vis q' vis' h
    unfold bfs_expand at h
    dsimp only at h
    by_cases hnp : ((p.1 + dxy.1, p.2 + dxy.2) : Pos) = b
    · rw [if_pos hnp] at h
      exact Except.noConfusion h
    · rw [if_neg hnp] at h
      by_cases hc : in_bounds fe.grid_size (p.1 + dxy.1, p.2 + dxy.2) ∧
          (p.1 + dxy.1, p.2 + dxy.2) ∉ fe.obstacles ∧
          (p.1 + dxy.1, p.2 + dxy.2) ∉ vis
      · rw [if_pos hc] at h
        obtain ⟨new', hq', hv', hnd', hx', hnb', hdone'⟩ := ih _ _ _ _ h
        refine ⟨(p.1 + dxy.1, p.2 + dxy.2) :: new', ?_, ?_, ?_, ?_, ?_, ?_⟩
        · rw [hq', List.append_assoc]
          rfl
        · rw [hv', List.append_assoc]
          rfl
        · rw [List.nodup_cons]
          refine ⟨fun hmem => ?_, hnd'⟩
          have := (hx' _ hmem).1
          exact this (List.mem_append_right vis (List.mem_singleton.mpr rfl))
        · intro x hx
          rcases List.mem_cons.mp hx with rfl | hx2
          · exact ⟨hc.2.2, ⟨hc.1, hc.2.1⟩, hnp,
              dxy, List.mem_cons_self dxy ds, rfl⟩
          · obtain ⟨hnv, hfree, hneb, dxy', hmem', heq'⟩ := hx' x hx2
            exact ⟨fun hv0 => hnv (List.mem_append_left _ hv0), hfree, hneb,
              dxy', List.mem_cons_of_mem dxy hmem', heq'⟩
        · intro dxy' hd
          rcases List.mem_cons.mp hd with rfl | hd2
          · exact hnp
          · exact hnb' dxy' hd2
        · intro dxy' hd hfree
          rcases List.mem_cons.mp hd with rfl | hd2
          · rw [hv']
            exact List.mem_append_left _
              (List.mem_append_right vis (List.mem_singleton.mpr rfl))
          · exact hdone' dxy' hd2 hfree
      · rw [if_neg hc] at h
        obtain ⟨new', hq', hv', hnd', hx', hnb', hdone'⟩ := ih _ _ _ _ h
        refine ⟨new', hq', hv', hnd', ?_, ?_, ?_⟩
        · intro x hx
          obtain ⟨hnv, hfree, hneb, dxy', hmem', heq'⟩ := hx' x hx
          exact ⟨hnv, hfree, hneb, dxy', List.mem_cons_of_mem dxy hmem', heq'⟩
        · intro dxy' hd
          rcases List.mem_cons.mp hd with rfl | hd2
          · exact hnp
          · exact hnb' dxy' hd2
        · intro dxy' hd hfree
          rcases List.mem_cons.mp hd with rfl | hd2
          · have hin : ((p.1 + dxy'.1, p.2 + dxy'.2) : Pos) ∈ vis := by
              by_contra hnin
              exact hc ⟨hfree.1, hfree.2, hnin⟩
            rw [hv']
            exact List.mem_append_left _ hin
          · exact hdone' dxy' hd2 hfree

/-- Helper: while the invariant holds at front depth K, every valid
walk to the target has more than K hops. -/
theorem bfs_no_short_path {fe : FeatureExtractor} {a b : Pos}
    {queue : List (Pos × ℕ)} {visited : List Pos} {K : ℕ}
    (inv : BfsInv fe a b queue visited K) (hab : a ≠ b) :
    ∀ m, ReachN fe a m b → K + 1 ≤ m := by
  intro m
  induction m using Nat.strong_induction_on with
  | _ m ih =>
    intro hm
    by_contra hlt
    push_neg at hlt
    cases m with
    | zero => exact hab (reach_zero hm).symm
    | succ m' =>
      obtain ⟨p', hp', hadj, _⟩ := reach_succ_inv hm
      by_cases hpb : p' = b
      · subst hpb
        have := ih m' (by omega) hp'
        omega
      · have hfree' := (reach_free hp').2
        have hvis : p' ∈ visited :=
          inv.cover p' m' hfree' hpb hp' (by omega)
        have hnq : p' ∉ queue.map Prod.fst := by
          intro hq
          obtain ⟨e, he, hefst⟩ := List.mem_map.mp hq
          have hle : e.2 ≤ m' := inv.mindist e he m' (by rw [hefst]; exact hp')
          obtain ⟨qf, qb, hsplit, hqf, hqb, _⟩ := inv.level
          have hK : e.2 = K ∨ e.2 = K + 1 := by
            rw [hsplit] at he
            rcases List.mem_append.mp he with h | h
            · exact Or.inl (hqf e h)
            · exact Or.inr (hqb e h)
          omega
        exact inv.nadjb p' hvis hnq hadj

/-- Helper: when the queue runs empty under the invariant, the target
is unreachable by any valid walk. -/
theorem bfs_empty_complete {fe : FeatureExtractor} {a b : Pos}
    {visited : List Pos} {K : ℕ}
    (inv : BfsInv fe a b [] visited K) (hab : a ≠ b) :
    ∀ m, ¬ ReachN fe a m b := by
  have main : ∀ m,
      (∀ p, free_cell fe p → p ≠ b → ReachN fe a m p → p ∈ visited) ∧
        ¬ ReachN fe a m b := by
    intro m
    induction m using Nat.strong_induction_on with
    | _ m ih =>
      constructor
      · intro p hf hpb hp
        cases m with
        | zero =>
          rw [reach_zero hp]
          exact inv.astart
        | succ m' =>
          obtain ⟨p'', hp'', hadj, _⟩ := reach_succ_inv hp
          by_cases hpb'' : p'' = b
          · subst hpb''
            exact absurd hp'' (ih m' (by omega)).2
          · have hf'' := (reach_free hp'').2
            have hv'' := (ih m' (by omega)).1 p'' hf'' hpb'' hp''
            exact inv.closed p'' hv'' (by simp) p hadj hf hpb
      · intro hm
        cases m with
        | zero => exact hab (reach_zero hm).symm
        | succ m' =>
          obtain ⟨p'', hp'', hadj, _⟩ := reach_succ_inv hm
          by_cases hpb'' : p'' = b
          · subst hpb''
            exact (ih m' (by omega)).2 hp''
          · have hf'' := (reach_free hp'').2
            have hv'' := (ih m' (by omega)).1 p'' hf'' hpb'' hp''
            exact inv.nadjb p'' hv'' (by simp) hadj
  exact fun m => (main m).2

/-- Helper: a duplicate-free list of in-grid cells has at most
grid_size^2 elements. -/
theorem visited_length_le {fe : FeatureExtractor} {visited : List Pos}
    (hnd : visited.Nodup) (hfree : ∀ p ∈ visited, free_cell fe p) :
    visited.length ≤ fe.grid_size.toNat * fe.grid_size.toNat := by
  rw [← List.toFinset_card_of_nodup hnd]
  have hsub : visited.toFinset ⊆
      (Finset.Icc (1 : ℤ) fe.grid_size) ×ˢ (Finset.Icc (1 : ℤ) fe.grid_size) := by
    intro p hp
    have hfp := hfree p (List.mem_toFinset.mp hp)
    have hib := hfp.1
    unfold in_bounds at hib
    rw [Finset.mem_product, Finset.mem_Icc, Finset.mem_Icc]
    exact ⟨⟨hib.1, hib.2.1⟩, ⟨hib.2.2.1, hib.2.2.2⟩⟩
  have hcard := Finset.card_le_card hsub
  rw [Finset.card_product] at hcard
  have hic : (Finset.Icc (1 : ℤ) fe.grid_size).card = fe.grid_size.toNat := by
    rw [Int.card_Icc]
    congr 1
    omega
  rw [hic] at hcard
  exact hcard

/-- Helper: the BFS loop, run under the invariant with sufficient fuel,
returns the length of a shortest valid walk to the target, or none
exactly when the target is unreachable. -/
theorem bfs_loop_correct (fe : FeatureExtractor) (a b : Pos)
    (hb : free_cell fe b) (hab : a ≠ b) :
    ∀ (fuel : ℕ) (queue : List (Pos × ℕ)) (visited : List Pos) (K : ℕ),
      BfsInv fe a b queue visited K →
      fuel ≥ queue.length +
        (fe.grid_size.toNat * fe.grid_size.toNat - visited.length) →
      (∀ n, bfs_loop fe b fuel queue visited = some n →
          ReachN fe a n b ∧ ∀ m, ReachN fe a m b → n ≤ m) ∧
        (bfs_loop fe b fuel queue visited = none → ∀ m, ¬ ReachN fe a m b) := by
  intro fuel
  induction fuel with
  | zero =>
    intro queue visited K inv hfuel
    cases queue with
    | nil =>
      constructor
      · intro n h
        exact Option.noConfusion h
      · intro _
        exact bfs_empty_complete inv hab
    | cons e rest =>
      exfalso
      rw [List.length_cons] at hfuel
      omega
  | succ f ih =>
    intro queue visited K inv hfuel
    cases queue with
    | nil =>
      constructor
      · intro n h
        exact Option.noConfusion h
      · intro _
        exact bfs_empty_complete inv hab
    | cons e rest =>
      obtain ⟨p, d⟩ := e
      obtain ⟨qf, qb, hsplit, hqf, hqb, hfe⟩ := inv.level
      have hqfne : qf ≠ [] := by
        intro h0
        rw [h0, hfe h0] at hsplit
        exact List.noConfusion hsplit
      obtain ⟨e0, qf', rfl⟩ := List.exists_cons_of_ne_nil hqfne
      rw [List.cons_append] at hsplit
      have he0 : e0 = (p, d) := ((List.cons.inj hsplit).1).symm
      have hrest : rest = qf' ++ qb := (List.cons.inj hsplit).2
      have hdK : K = d := by
        have h1 := hqf e0 (List.mem_cons_self e0 qf')
        rw [he0] at h1
        exact h1.symm
      subst hdK
      have hpK : ReachN fe a K p :=
        inv.sound (p, K) (List.mem_cons_self (p, K) rest)
      have hnshort := bfs_no_short_path inv hab
      have hrestq : ∀ e2 ∈ rest, e2 ∈ (p, K) :: rest :=
        fun e2 he2 => List.mem_cons_of_mem _ he2
      cases hexp : bfs_expand fe b K p bfs_deltas rest visited with
      | error n0 =>
        have hloop : bfs_loop fe b (f + 1) ((p, K) :: rest) visited = some n0 := by
          unfold bfs_loop
          rw [hexp]
        obtain ⟨hn0, dxy, hdmem, hbeq⟩ := bfs_expand_error fe b K p _ _ _ _ hexp
        have hadjpb : adjacent p b := ⟨dxy, hdmem, hbeq⟩
        have hreach : ReachN fe a (K + 1) b := ReachN.step hpK hadjpb hb
        constructor
        · intro n hn
          rw [hloop] at hn
          cases Option.some.inj hn
          subst hn0
          exact ⟨hreach, hnshort⟩
        · intro hnone
          rw [hloop] at hnone
          exact Option.noConfusion hnone
      | ok qv =>
        obtain ⟨q', vis'⟩ := qv
        have hloop : bfs_loop fe b (f + 1) ((p, K) :: rest) visited
            = bfs_loop fe b f q' vis' := by
          conv_lhs => rw [bfs_loop]
          rw [hexp]
        obtain ⟨new, hq', hv', hnd, hxprops, hnbd, hdone⟩ :=
          bfs_expand_ok fe b K p _ _ _ _ _ hexp
        have hxf : ∀ x ∈ new, free_cell fe x := fun x hx => (hxprops x hx).2.1
        have hxnv : ∀ x ∈ new, x ∉ visited := fun x hx => (hxprops x hx).1
        have hxnb : ∀ x ∈ new, x ≠ b := fun x hx => (hxprops x hx).2.2.1
        have hxadj : ∀ x ∈ new, adjacent p x := by
          intro x hx
          obtain ⟨_, _, _, dxy, hd, he⟩ := hxprops x hx
          exact ⟨dxy, hd, he⟩
        have hxsound : ∀ x ∈ new, ReachN fe a (K + 1) x :=
          fun x hx => ReachN.step hpK (hxadj x hx) (hxf x hx)
        have hxmin : ∀ x ∈ new, ∀ m, ReachN fe a m x → K + 1 ≤ m := by
          intro x hx m hm
          by_contra hlt
          push_neg at hlt
          exact hxnv x hx
            (inv.cover x m (hxf x hx) (hxnb x hx) hm (by omega))
        have hvis'nodup : vis'.Nodup := by
          rw [hv']
          exact List.Nodup.append inv.vnodup hnd
            (fun x hxv hxn => hxnv x hxn hxv)
        have hvis'free : ∀ x ∈ vis', free_cell fe x := by
          rw [hv']
          intro x hx
          rcases List.mem_append.mp hx with h | h
          · exact inv.vfree x h
          · exact hxf x h
        have hvis'notb : ∀ x ∈ vis', x ≠ b := by
          rw [hv']
          intro x hx
          rcases List.mem_append.mp hx with h | h
          · exact inv.vnotb x h
          · exact hxnb x h
        have hvis'start : a ∈ vis' := by
          rw [hv']
          exact List.mem_append_left _ inv.astart
        have hq'fst : q'.map Prod.fst = rest.map Prod.fst ++ new := by
          rw [hq', List.map_append, List.map_map]
          congr 1
          exact List.map_id new
        have hq'sound : ∀ e2 ∈ q', ReachN fe a e2.2 e2.1 := by
          intro e2 he2
          rw [hq'] at he2
          rcases List.mem_append.mp he2 with h | h
          · exact inv.sound e2 (hrestq e2 h)
          · obtain ⟨x, hx, rfl⟩ := List.mem_map.mp h
            exact hxsound x hx
        have hq'min : ∀ e2 ∈ q', ∀ m, ReachN fe a m e2.1 → e2.2 ≤ m := by
          intro e2 he2
          rw [hq'] at he2
          rcases List.mem_append.mp he2 with h | h
          · exact inv.mindist e2 (hrestq e2 h)
          · obtain ⟨x, hx, rfl⟩ := List.mem_map.mp h
            exact hxmin x hx
        have hq'sub : ∀ e2 ∈ q', e2.1 ∈ vis' := by
          intro e2 he2
          rw [hq'] at he2
          rw [hv']
          rcases List.mem_append.mp he2 with h | h
          · exact List.mem_append_left _ (inv.qsub e2 (hrestq e2 h))
          · obtain ⟨x, hx, rfl⟩ := List.mem_map.mp h
            exact List.mem_append_right _ hx
        have hq'nodup : (q'.map Prod.fst).Nodup := by
          rw [hq'fst]
          refine List.Nodup.append ?_ hnd ?_
          · exact (List.nodup_cons.mp inv.qnodup).2
          · intro x hxr hxn
            have hxv : x ∈ visited := by
              obtain ⟨e2, he2, rfl⟩ := List.mem_map.mp hxr
              exact inv.qsub e2 (hrestq e2 he2)
            exact hxnv x hxn hxv
        have hclosed' : ∀ x ∈ vis', x ∉ q'.map Prod.fst →
            ∀ q0, adjacent x q0 → free_cell fe q0 → q0 ≠ b → q0 ∈ vis' := by
          intro x hx hnq q0 hadj hf hq0b
          rw [hq'fst] at hnq
          have hxvis : x ∈ visited := by
            rw [hv'] at hx
            rcases List.mem_append.mp hx with h | h
            · exact h
            · exact absurd (List.mem_append_right (rest.map Prod.fst) h) hnq
          by_cases hxp : x = p
          · subst hxp
            obtain ⟨dxy, hd, rfl⟩ := hadj
            exact hdone dxy hd hf
          · have hnold : x ∉ ((p, K) :: rest).map Prod.fst := by
              intro hmem
              rcases List.mem_cons.mp hmem with h | h
              · exact hxp h
              · exact hnq (List.mem_append_left _ h)
            have hin := inv.closed x hxvis hnold q0 hadj hf hq0b
            rw [hv']
            exact List.mem_append_left _ hin
        have hnadjb' : ∀ x ∈ vis', x ∉ q'.map Prod.fst → ¬ adjacent x b := by
          intro x hx hnq hadj
          rw [hq'fst] at hnq
          have hxvis : x ∈ visited := by
            rw [hv'] at hx
            rcases List.mem_append.mp hx with h | h
            · exact h
            · exact absurd (List.mem_append_right (rest.map Prod.fst) h) hnq
          by_cases hxp : x = p
          · subst hxp
            obtain ⟨dxy, hd, hbe⟩ := hadj
            exact hnbd dxy hd hbe.symm
          · have hnold : x ∉ ((p, K) :: rest).map Prod.fst := by
              intro hmem
              rcases List.mem_cons.mp hmem with h | h
              · exact hxp h
              · exact hnq (List.mem_append_left _ h)
            exact inv.nadjb x hxvis hnold hadj
        have hlen : vis'.length = visited.length + new.length := by
          rw [hv', List.length_append]
        have hq'len : q'.length = rest.length + new.length := by
          rw [hq', List.length_append, List.length_map]
        have hBle := visited_length_le hvis'nodup hvis'free
        have harith : f ≥ q'.length +
            (fe.grid_size.toNat * fe.grid_size.toNat - vis'.length) := by
          rw [List.length_cons] at hfuel
          omega
        rw [hloop]
        by_cases hqf'nil : qf' = []
        · -- front level exhausted: promote to depth K+1
          subst hqf'nil
          rw [List.nil_append] at hrest
          have hrestK1 : ∀ e2 ∈ rest, e2.2 = K + 1 := by
            intro e2 he2
            rw [hrest] at he2
            exact hqb e2 he2
          have hlevel : ∃ qf2 qb2, q' = qf2 ++ qb2 ∧
              (∀ e2 ∈ qf2, e2.2 = K + 1) ∧
              (∀ e2 ∈ qb2, e2.2 = K + 1 + 1) ∧ (qf2 = [] → qb2 = []) := by
            refine ⟨q', [], (List.append_nil q').symm, ?_, ?_, fun _ => rfl⟩
            · intro e2 he2
              rw [hq'] at he2
              rcases List.mem_append.mp he2 with h | h
              · exact hrestK1 e2 h
              · obtain ⟨x, hx, rfl⟩ := List.mem_map.mp h
                rfl
            · intro e2 he2
              exact absurd he2 (List.not_mem_nil e2)
          have hcover1 : ∀ p' m, free_cell fe p' → p' ≠ b →
              ReachN fe a m p' → m ≤ K + 1 → p' ∈ vis' := by
            intro p' m hf' hp'b hm hmle
            by_cases hmK : m ≤ K
            · rw [hv']
              exact List.mem_append_left _ (inv.cover p' m hf' hp'b hm hmK)
            · have hmeq : m = K + 1 := by omega
              subst hmeq
              obtain ⟨p'', hp'', hadj, _⟩ := reach_succ_inv hm
              have hf'' := (reach_free hp'').2
              by_cases hp''b : p'' = b
              · subst hp''b
                have := hnshort K hp''
                omega
              · have hvis'' : p'' ∈ visited :=
                  inv.cover p'' K hf'' hp''b hp'' (le_refl K)
                by_cases hp''q : p'' ∈ ((p, K) :: rest).map Prod.fst
                · have hp''p : p'' = p := by
                    rcases List.mem_cons.mp hp''q with h | h
                    · exact h
                    · exfalso
                      obtain ⟨e2, he2, rfl⟩ := List.mem_map.mp h
                      have h1 : e2.2 ≤ K :=
                        inv.mindist e2 (hrestq e2 he2) K hp''
                      have h2 : e2.2 = K + 1 := hrestK1 e2 he2
                      omega
                  subst hp''p
                  obtain ⟨dxy, hd, rfl⟩ := hadj
                  exact hdone dxy hd hf'
                · have hin := inv.closed p'' hvis'' hp''q p' hadj hf' hp'b
                  rw [hv']
                  exact List.mem_append_left _ hin
          have inv' : BfsInv fe a b q' vis' (K + 1) :=
            ⟨hlevel, hq'sound, hq'min, hq'sub, hvis'nodup, hq'nodup,
              hvis'free, hvis'notb, hvis'start, hcover1, hclosed', hnadjb'⟩
          exact ih q' vis' (K + 1) inv' harith
        · -- front level continues at depth K
          have hlevel : ∃ qf2 qb2, q' = qf2 ++ qb2 ∧
              (∀ e2 ∈ qf2, e2.2 = K) ∧
              (∀ e2 ∈ qb2, e2.2 = K + 1) ∧ (qf2 = [] → qb2 = []) := by
            refine ⟨qf', qb ++ new.map (fun x => (x, K + 1)), ?_, ?_, ?_, ?_⟩
            · rw [hq', hrest, List.append_assoc]
            · intro e2 he2
              exact hqf e2 (List.mem_cons_of_mem e0 he2)
            · intro e2 he2
              rcases List.mem_append.mp he2 with h | h
              · exact hqb e2 h
              · obtain ⟨x, hx, rfl⟩ := List.mem_map.mp h
                rfl
            · intro h
              exact absurd h hqf'nil
          have hcover0 : ∀ p' m, free_cell fe p' → p' ≠ b →
              ReachN fe a m p' → m ≤ K → p' ∈ vis' := by
            intro p' m hf' hp'b hm hmK
            rw [hv']
            exact List.mem_append_left _ (inv.cover p' m hf' hp'b hm hmK)
          have inv' : BfsInv fe a b q' vis' K :=
            ⟨hlevel, hq'sound, hq'min, hq'sub, hvis'nodup, hq'nodup,
              hvis'free, hvis'notb, hvis'start, hcover0, hclosed', hnadjb'⟩
          exact ih q' vis' K inv' harith

/-- Helper: for free endpoints, _bfs returns the hop count of a
shortest valid walk, or none exactly when the target is unreachable. -/
theorem bfs_correct (fe : FeatureExtractor) (a b : Pos)
    (ha : free_cell fe a) (hb : free_cell fe b) :
    (∀ n, bfs fe a b = some n →
        ReachN fe a n b ∧ ∀ m, ReachN fe a m b → n ≤ m) ∧
      (bfs fe a b = none → ∀ m, ¬ ReachN fe a m b) := by
  by_cases hab : a = b
  · subst hab
    unfold bfs
    rw [if_pos rfl]
    constructor
    · intro n hn
      cases Option.some.inj hn
      exact ⟨ReachN.refl ha, fun m _ => Nat.zero_le m⟩
    · intro h
      exact Option.noConfusion h
  · unfold bfs
    rw [if_neg hab]
    have inv0 : BfsInv fe a b [(a, 0)] [a] 0 := by
      refine ⟨⟨[(a, 0)], [], (List.append_nil _).symm, ?_, ?_, fun _ => rfl⟩,
        ?_, ?_, ?_, ?_, ?_, ?_, ?_, ?_, ?_, ?_, ?_⟩
      · intro e he
        rw [List.mem_singleton.mp he]
      · intro e he
        exact absurd he (List.not_mem_nil e)
      · intro e he
        rw [List.mem_singleton.mp he]
        exact ReachN.refl ha
      · intro e he m _
        rw [List.mem_singleton.mp he]
        exact Nat.zero_le m
      · intro e he
        rw [List.mem_singleton.mp he]
        exact List.mem_singleton.mpr rfl
      · exact List.nodup_singleton a
      · exact List.nodup_singleton a
      · intro p hp
        rw [List.mem_singleton.mp hp]
        exact ha
      · intro p hp
        rw [List.mem_singleton.mp hp]
        exact hab
      · exact List.mem_singleton.mpr rfl
      · intro p m _ _ hm hm0
        have : m = 0 := Nat.le_zero.mp hm0
        subst this
        rw [reach_zero hm]
        exact List.mem_singleton.mpr rfl
      · intro p hp hnq
        exfalso
        exact hnq (by rw [List.mem_singleton.mp hp]; exact List.mem_singleton.mpr rfl)
      · intro p hp hnq
        exfalso
        exact hnq (by rw [List.mem_singleton.mp hp]; exact List.mem_singleton.mpr rfl)
    have hgs1 : 1 ≤ fe.grid_size.toNat := by
      have h1 := ha.1
      unfold in_bounds at h1
      omega
    have hB1 : 1 ≤ fe.grid_size.toNat * fe.grid_size.toNat := by
      calc 1 = 1 * 1 := (one_mul 1).symm
      _ ≤ fe.grid_size.toNat * fe.grid_size.toNat := Nat.mul_le_mul hgs1 hgs1
    refine bfs_loop_correct fe a b hb hab (bfs_fuel fe) [(a, 0)] [a] 0 inv0 ?_
    unfold bfs_fuel
    rw [List.length_singleton, List.length_singleton]
    omega

/-- C5 counterexample: with the single obstacle (1,2), the claim says
get_path_distance((1,1), (1,2)) must be None (every walk must end on
the obstacle cell), yet the code returns 1 — _bfs tests neighbours
against the target before the obstacle check. -/
theorem get_path_distance_counterexample :
    (get_path_distance feC [] ((1 : ℤ), (1 : ℤ)) ((1 : ℤ), (2 : ℤ))).1 = some 1 ∧
      ∀ m, ¬ ReachN feC ((1 : ℤ), (1 : ℤ)) m ((1 : ℤ), (2 : ℤ)) := by
  constructor
  · decide
  · intro m hm
    exact (reach_free hm).2.2 (by decide)

/-- C5 amended: for endpoints that are inside the grid and off the
obstacles, and a well-formed cache, get_path_distance returns some n
exactly when n is the hop count of a shortest 4-connected
obstacle-avoiding in-bounds walk between them, and none exactly when
no such walk exists. -/
theorem get_path_distance_spec (fe : FeatureExtractor) (cache : Cache)
    (a b : Pos) (hwf : cache_wf fe cache)
    (ha : free_cell fe a) (hb : free_cell fe b) :
    (∀ n, (get_path_distance fe cache a b).1 = some n →
        ReachN fe a n b ∧ ∀ m, ReachN fe a m b → n ≤ m) ∧
      ((get_path_distance fe cache a b).1 = none →
        ∀ m, ¬ ReachN fe a m b) := by
  have hval : (get_path_distance fe cache a b).1 = bfs fe a b ∨
      (get_path_distance fe cache a b).1 = bfs fe b a := by
    unfold get_path_distance
    dsimp only
    cases hl : assocLookup cache (sorted_key a b) with
    | none => exact Or.inl rfl
    | some v =>
      unfold sorted_key at hl
      by_cases hple : pair_le a b
      · rw [if_pos hple] at hl
        exact hwf a b v hl
      · rw [if_neg hple] at hl
        rcases hwf b a v hl with h | h
        · exact Or.inr h
        · exact Or.inl h
  rcases hval with h | h
  · rw [h]
    exact bfs_correct fe a b ha hb
  · rw [h]
    obtain ⟨h1, h2⟩ := bfs_correct fe b a hb ha
    constructor
    · intro n hn
      obtain ⟨hr, hmin⟩ := h1 n hn
      exact ⟨reach_symm hr, fun m hm => hmin m (reach_symm hm)⟩
    · intro hn m hm
      exact h2 hn m (reach_symm hm)

/-- Witness for the amended C5: in feA (2x2 grid, no obstacles) with an
empty cache, the theorem applies to the free corners (1,1) and (2,2). -/
theorem get_path_distance_spec_witness :
    (∀ n, (get_path_distance feA [] ((1 : ℤ), (1 : ℤ)) ((2 : ℤ), (2 : ℤ))).1
          = some n →
        ReachN feA ((1 : ℤ), (1 : ℤ)) n ((2 : ℤ), (2 : ℤ)) ∧
          ∀ m, ReachN feA ((1 : ℤ), (1 : ℤ)) m ((2 : ℤ), (2 : ℤ)) → n ≤ m) ∧
      ((get_path_distance feA [] ((1 : ℤ), (1 : ℤ)) ((2 : ℤ), (2 : ℤ))).1
          = none →
        ∀ m, ¬ ReachN feA ((1 : ℤ), (1 : ℤ)) m ((2 : ℤ), (2 : ℤ))) :=
  get_path_distance_spec feA [] ((1 : ℤ), (1 : ℤ)) ((2 : ℤ), (2 : ℤ))
    (fun p q v h => Option.noConfusion h) (by decide) (by decide)

end MDP
